import Mathlib

/-!
Verification of the "Copy for LLM" content extractor
(`src/scripts/copy-for-llm.js`, function `extractPageText`).

The DOM is shallowly embedded as a rose tree of element/text nodes.
Tag names and attribute names are stored lowercase (as the HTML parser
canonicalizes them and the source lowercases `tagName` before every
comparison).  An element's inline style is represented by pseudo-attribute
keys `style.<property>`; the source only ever *removes* the `display`
property and never reads any style, so no CSS semantics are needed.

All string operations used by the extractor (trim, split, join, the
`/\n{3,}/g` collapse, the `/language-(\w+)/` match) are implemented as
plain structural recursions over character lists so that every definition
reduces inside the kernel.
-/

/-- Whitespace as recognized by JavaScript's `String.prototype.trim` /
`\s` (the characters that can actually occur here; exotic Unicode spaces
are included for the common cases NBSP and BOM). -/
def isJsWs (c : Char) : Bool :=
  c == ' ' || c == '\t' || c == '\n' || c == '\r' ||
  c == '\x0b' || c == '\x0c' || c == ' ' || c == '﻿'

/-- JavaScript `String.prototype.trim`: strip leading and trailing
whitespace. -/
def jsTrim (s : String) : String :=
  String.mk (((s.data.dropWhile isJsWs).reverse.dropWhile isJsWs).reverse)

/-- `Array.prototype.join("\n")`. -/
def joinNL : List String → String
  | [] => ""
  | [s] => s
  | s :: rest => s ++ "\n" ++ joinNL rest

/-- `Array.prototype.join(sep)` (used for table cells). -/
def joinSep (sep : String) : List String → String
  | [] => ""
  | [s] => s
  | s :: rest => s ++ sep ++ joinSep sep rest

/-- `String.prototype.split("\n")` (used for blockquotes).  On the empty
string JavaScript yields `[""]`, as does this definition. -/
def splitNLAux (cur : List Char) : List Char → List String
  | [] => [String.mk cur.reverse]
  | c :: cs =>
    if c == '\n' then String.mk cur.reverse :: splitNLAux [] cs
    else splitNLAux (c :: cur) cs

def splitNL (s : String) : List String := splitNLAux [] s.data

/-- The replacement `.replace(/\n{3,}/g, "\n\n")`: scan the character
list keeping a count of pending newlines; a maximal run of `k` newlines
is emitted as `min k 2` newlines (runs of one or two are kept, runs of
three or more become exactly two). -/
def collapseAux : Nat → List Char → List Char
  | p, [] => List.replicate (min p 2) '\n'
  | p, c :: cs =>
    if c == '\n' then collapseAux (p + 1) cs
    else List.replicate (min p 2) '\n' ++ c :: collapseAux 0 cs

def collapseNewlines (s : String) : String := String.mk (collapseAux 0 s.data)

/-- Detector for a run of three consecutive newlines (`\n\n\n`), stated
as a scanner so it reduces in the kernel; the accumulator counts the
newlines seen immediately before the current position. -/
def hasTripleAux : Nat → List Char → Bool
  | _, [] => false
  | p, c :: cs => if c == '\n' then (p + 1 ≥ 3) || hasTripleAux (p + 1) cs
                  else hasTripleAux 0 cs

/-- JavaScript `\w` (the regex `language-(\w+)` uses it). -/
def isWordChar (c : Char) : Bool :=
  ('a' ≤ c && c ≤ 'z') || ('A' ≤ c && c ≤ 'Z') || ('0' ≤ c && c ≤ '9') || c == '_'

def listStartsWith : List Char → List Char → Bool
  | [], _ => true
  | _ :: _, [] => false
  | p :: ps, c :: cs => p == c && listStartsWith ps cs

/-- The regex search `className.match(/language-(\w+)/)`: find the first
position where the literal `language-` is followed by at least one word
character and return that word-character run. -/
def findLangAux : List Char → Option String
  | [] => none
  | c :: cs =>
    if listStartsWith "language-".data (c :: cs) then
      let run := ((c :: cs).drop 9).takeWhile isWordChar
      if run.isEmpty then findLangAux cs else some (String.mk run)
    else findLangAux cs

def findLang (s : String) : Option String := findLangAux s.data

/-- Whitespace-separated class tokens of a `class` attribute value (for
matching class selectors such as `.sr-only`). -/
def classTokensAux (cur : List Char) : List Char → List String
  | [] => if cur.isEmpty then [] else [String.mk cur.reverse]
  | c :: cs =>
    if isJsWs c then
      if cur.isEmpty then classTokensAux [] cs
      else String.mk cur.reverse :: classTokensAux [] cs
    else classTokensAux (c :: cur) cs

def classTokens (s : String) : List String := classTokensAux [] s.data

/-- `"#".repeat n`. -/
def hashRepeat (n : Nat) : String := String.mk (List.replicate n '#')

/-! ## The DOM tree -/

/-- A DOM node: a text node, or an element with a tag name, an attribute
list and a list of child nodes (in document order). -/
inductive Node where
  | text : String → Node
  | elem : String → List (String × String) → List Node → Node

/-- `getAttribute`: first binding of the key in the attribute list. -/
def getAttr : List (String × String) → String → Option String
  | [], _ => none
  | (k, v) :: rest, key => if k == key then some v else getAttr rest key

/-- `removeAttribute`. -/
def removeAttr : List (String × String) → String → List (String × String)
  | [], _ => []
  | (k, v) :: rest, key =>
    if k == key then removeAttr rest key else (k, v) :: removeAttr rest key

/-- `el.removeAttribute("aria-hidden"); el.removeAttribute("hidden");
el.style.removeProperty("display")` — the unhide step applied to both
tab panels and code-containing hidden elements. -/
def unhide (a : List (String × String)) : List (String × String) :=
  removeAttr (removeAttr (removeAttr a "aria-hidden") "hidden") "style.display"

def Node.tag : Node → String
  | .text _ => ""
  | .elem t _ _ => t

def Node.attrs : Node → List (String × String)
  | .text _ => []
  | .elem _ a _ => a

def Node.isElem : Node → Bool
  | .text _ => false
  | .elem _ _ _ => true

/-- `className` (empty for text nodes / absent attribute, as in
`codeEl.className || ""`). -/
def className (n : Node) : String := (getAttr n.attrs "class").getD ""

mutual
/-- `textContent`: concatenation of all text-node data in the subtree. -/
def textContent : Node → String
  | .text s => s
  | .elem _ _ cs => textContentL cs
def textContentL : List Node → String
  | [] => ""
  | c :: cs => textContent c ++ textContentL cs
end

mutual
/-- `el.querySelector("pre") !== null || el.tagName === "pre"`:
the subtree (self included) contains a `pre` element. -/
def hasPreIn : Node → Bool
  | .text _ => false
  | .elem t _ cs => t == "pre" || hasPreInL cs
def hasPreInL : List Node → Bool
  | [] => false
  | c :: cs => hasPreIn c || hasPreInL cs
end

mutual
/-- `querySelector(sel)` on a document/root: first node (in document
order, self included) satisfying the predicate. -/
def findFirst (p : Node → Bool) : Node → Option Node
  | .text s => if p (.text s) then some (.text s) else none
  | .elem t a cs =>
    if p (.elem t a cs) then some (.elem t a cs) else findFirstL p cs
def findFirstL (p : Node → Bool) : List Node → Option Node
  | [] => none
  | c :: cs =>
    match findFirst p c with
    | some r => some r
    | none => findFirstL p cs
end

mutual
/-- First `h1` element (in document order) having a strict ancestor with
tag `anc` — the descendant-combinator selectors `article h1` / `main h1`.
`inside` records whether some ancestor of the current node matched. -/
def findDescH1 (anc : String) (inside : Bool) : Node → Option Node
  | .text _ => none
  | .elem t a cs =>
    if inside && t == "h1" then some (.elem t a cs)
    else findDescH1L anc (inside || t == anc) cs
def findDescH1L (anc : String) (inside : Bool) : List Node → Option Node
  | [] => none
  | c :: cs =>
    match findDescH1 anc inside c with
    | some r => some r
    | none => findDescH1L anc inside cs
end

mutual
/-- `root.querySelectorAll(sel)` restricted to a predicate: all strict
descendants matching, in document order (the context node itself is
never returned by `querySelectorAll`). -/
def qsa (p : Node → Bool) : Node → List Node
  | .text _ => []
  | .elem _ _ cs => qsaL p cs
def qsaL (p : Node → Bool) : List Node → List Node
  | [] => []
  | c :: cs => (if p c then [c] else []) ++ qsa p c ++ qsaL p cs
end

mutual
/-- All strict descendants of a node, in document order. -/
def descs : Node → List Node
  | .text _ => []
  | .elem _ _ cs => descsL cs
def descsL : List Node → List Node
  | [] => []
  | c :: cs => c :: descs c ++ descsL cs
end

/-! ## Pre-clean phase

`clone.querySelectorAll(sel).forEach(...)` mutates every matching strict
descendant of the clone; since the mutations are attribute removals they
do not change which nodes match, so each step is modelled as one pure
map over all strict descendants. -/

mutual
/-- Step 1, applied to a node and its whole subtree: every element with
`role="tabpanel"` has its hidden markers removed. -/
def pc1 : Node → Node
  | .text s => .text s
  | .elem t a cs =>
    .elem t (if getAttr a "role" == some "tabpanel" then unhide a else a) (pc1L cs)
def pc1L : List Node → List Node
  | [] => []
  | c :: cs => pc1 c :: pc1L cs
end

/-- Step 1 on the clone (`querySelectorAll` never matches the context
node, so the clone's own attributes are untouched). -/
def preCleanTabs : Node → Node
  | .text s => .text s
  | .elem t a cs => .elem t a (pc1L cs)

mutual
/-- Step 2, applied to a node and its whole subtree: every element with
`aria-hidden="true"` that is a `pre` or contains a `pre` descendant has
its hidden markers removed. -/
def pc2 : Node → Node
  | .text s => .text s
  | .elem t a cs =>
    .elem t
      (if getAttr a "aria-hidden" == some "true" && (t == "pre" || hasPreInL cs)
       then unhide a else a)
      (pc2L cs)
def pc2L : List Node → List Node
  | [] => []
  | c :: cs => pc2 c :: pc2L cs
end

/-- Step 2 on the clone (context node excluded). -/
def preCleanHidden : Node → Node
  | .text s => .text s
  | .elem t a cs => .elem t a (pc2L cs)

/-- The whole pre-clean phase, in source order: tab panels first, then
hidden elements containing code blocks. -/
def preCleanPhase (n : Node) : Node := preCleanHidden (preCleanTabs n)

/-! ## Strip phase -/

mutual
/-- `clone.querySelectorAll(sel).forEach(el => el.remove())`: remove
every strict descendant element matching the predicate (together with
its subtree). -/
def removeMatching (p : Node → Bool) : Node → Node
  | .text s => .text s
  | .elem t a cs => .elem t a (removeML p cs)
def removeML (p : Node → Bool) : List Node → List Node
  | [] => []
  | c :: cs =>
    if c.isElem && p c then removeML p cs
    else removeMatching p c :: removeML p cs
end

def selNav (n : Node) : Bool := n.isElem && n.tag == "nav"
def selHeader (n : Node) : Bool := n.isElem && n.tag == "header"
def selFooter (n : Node) : Bool := n.isElem && n.tag == "footer"
def selHidden (n : Node) : Bool :=
  n.isElem && getAttr n.attrs "aria-hidden" == some "true"
def selWrapper (n : Node) : Bool :=
  n.isElem && (classTokens (className n)).contains "copy-for-llm-btn-wrapper"
def selButton (n : Node) : Bool := n.isElem && n.tag == "button"
def selSvg (n : Node) : Bool := n.isElem && n.tag == "svg"
def selSrOnly (n : Node) : Bool :=
  n.isElem && (classTokens (className n)).contains "sr-only"
def selToc (n : Node) : Bool :=
  n.isElem && getAttr n.attrs "data-testid" == some "table-of-contents"

/-- The strip selectors, in source order. -/
def stripSelectors : List (Node → Bool) :=
  [selNav, selHeader, selFooter, selHidden, selWrapper,
   selButton, selSvg, selSrOnly, selToc]

/-- The strip phase: one removal pass per selector, in order. -/
def stripPhase (n : Node) : Node :=
  stripSelectors.foldl (fun acc p => removeMatching p acc) n

/-- The passes that run before the `[aria-hidden='true']` pass. -/
def stripHead (n : Node) : Node :=
  removeMatching selFooter (removeMatching selHeader (removeMatching selNav n))

/-- The passes that run after the `[aria-hidden='true']` pass. -/
def stripTail (n : Node) : Node :=
  removeMatching selToc (removeMatching selSrOnly (removeMatching selSvg
    (removeMatching selButton (removeMatching selWrapper n))))

/-- The fully cleaned clone: pre-clean, then strip. -/
def cleanClone (root : Node) : Node := stripPhase (preCleanPhase root)

/-! ## Title extraction and root selection -/

/-- A document: the page URL (`window.location.href`) and the root
element of the live DOM tree. -/
structure Document where
  url : String
  root : Node

def isArticle (n : Node) : Bool := n.isElem && n.tag == "article"
def isMain (n : Node) : Bool := n.isElem && n.tag == "main"
def isH1 (n : Node) : Bool := n.isElem && n.tag == "h1"
def isContentArea (n : Node) : Bool :=
  n.isElem && getAttr n.attrs "id" == some "content-area"

/-- Root selection:
`document.querySelector("article") || document.getElementById("content-area")
 || document.querySelector("main")`. -/
def rootSel (doc : Document) : Option Node :=
  match findFirst isArticle doc.root with
  | some r => some r
  | none =>
    match findFirst isContentArea doc.root with
    | some r => some r
    | none => findFirst isMain doc.root

/-- Title search on the **live document**:
`document.querySelector("article h1") || document.querySelector("main h1")
 || document.querySelector("h1")`. -/
def titleCascade (doc : Document) : Option Node :=
  match findDescH1 "article" false doc.root with
  | some r => some r
  | none =>
    match findDescH1 "main" false doc.root with
    | some r => some r
    | none => findFirst isH1 doc.root

/-- The lines pushed for the title (`# <trimmed text>` plus a blank
line), or nothing when no `h1` was found. -/
def titleLines (doc : Document) : List String :=
  match titleCascade doc with
  | some t => ["# " ++ jsTrim (textContent t), ""]
  | none => []

/-! ## The recursive tree walk -/

def Node.children : Node → List Node
  | .text _ => []
  | .elem _ _ cs => cs

def isCode (n : Node) : Bool := n.isElem && n.tag == "code"
def isPre (n : Node) : Bool := n.isElem && n.tag == "pre"
def isTr (n : Node) : Bool := n.isElem && n.tag == "tr"
def isThTd (n : Node) : Bool := n.isElem && (n.tag == "th" || n.tag == "td")

/-- `pre.querySelector("code")` (first `code` strict descendant). -/
def preCodeEl (n : Node) : Option Node := findFirstL isCode n.children

/-- The language tag of a fenced block: from a `language-<word>` match on
the contained code element's class, empty otherwise. -/
def preLang (n : Node) : String :=
  match preCodeEl n with
  | some c => (findLang (className c)).getD ""
  | none => ""

/-- `(codeEl || node).textContent.trim()`. -/
def preText (n : Node) : String :=
  jsTrim (textContent ((preCodeEl n).getD n))

/-- `parseInt(tag[1], 10)` for `h2`..`h6`. -/
def headingLevel (t : String) : Nat :=
  match t.data with
  | [_, c] => c.toNat - '0'.toNat
  | _ => 0

/-- One table row: `| cell | cell |` over all `th`/`td` descendants of
the `tr`. -/
def rowLine (r : Node) : String :=
  "| " ++ joinSep " | " ((qsa isThTd r).map (fun c => jsTrim (textContent c))) ++ " |"

/-- The separator emitted right after the first row: one `---` per cell
of that row. -/
def sepLine (r : Node) : String :=
  "| " ++ joinSep " | " ((qsa isThTd r).map (fun _ => "---")) ++ " |"

/-- The lines emitted for a `table` element: every `tr` descendant as a
row, the `---` separator after the first row, and a blank line after the
table. -/
def tableLines (n : Node) : List String :=
  match qsa isTr n with
  | [] => [""]
  | r :: rest => rowLine r :: sepLine r :: rest.map rowLine ++ [""]

mutual
/-- The `walk` function of the source, emitting the list of pushed
lines.  `ptag` is the tag of `node.parentElement` and `pidx` the 1-based
position of the node among its parent's *element* children
(`Array.from(parent.children).indexOf(node) + 1`), which the source
reads off the live parent pointers. -/
def walkNode (ptag : String) (pidx : Nat) : Node → List String
  | .text s => if jsTrim s == "" then [] else [s]
  | .elem t a cs =>
    if t == "h2" || t == "h3" || t == "h4" || t == "h5" || t == "h6" then
      ["", hashRepeat (headingLevel t) ++ " " ++ jsTrim (textContentL cs), ""]
    else if t == "pre" then
      ["", "```" ++ preLang (.elem t a cs), preText (.elem t a cs), "```", ""]
    else if t == "code" && ptag != "pre" then
      ["`" ++ jsTrim (textContentL cs) ++ "`"]
    else if t == "p" then
      "" :: (walkKids t 0 cs ++ [""])
    else if t == "li" then
      [(if ptag == "ol" then Nat.repr pidx ++ ". " else "- ") ++ jsTrim (textContentL cs)]
    else if t == "table" then
      tableLines (.elem t a cs)
    else if t == "blockquote" then
      ["", joinNL ((splitNL (jsTrim (textContentL cs))).map (fun l => "> " ++ l)), ""]
    else if t == "strong" || t == "b" then
      ["**" ++ jsTrim (textContentL cs) ++ "**"]
    else if t == "a" then
      ["[" ++ jsTrim (textContentL cs) ++ "](" ++ (getAttr a "href").getD "" ++ ")"]
    else
      walkKids t 0 cs

/-- Walk a `childNodes` list in order.  `cnt` counts the element
children already passed, so an element child gets 1-based index
`cnt + 1`. -/
def walkKids (ptag : String) (cnt : Nat) : List Node → List String
  | [] => []
  | c :: cs =>
    walkNode ptag (if c.isElem then cnt + 1 else 0) c ++
      walkKids ptag (if c.isElem then cnt + 1 else cnt) cs
end

/-- The top-level loop over `clone.children` (element children only):
`h1` children are skipped (but still occupy their index), every other
element child is walked. -/
def topGo (ptag : String) : Nat → List Node → List String
  | _, [] => []
  | cnt, c :: cs =>
    if c.isElem then
      (if c.tag == "h1" then [] else walkNode ptag (cnt + 1) c) ++
        topGo ptag (cnt + 1) cs
    else topGo ptag cnt cs

/-- The body lines: the walk over the cleaned clone of the content
root. -/
def bodyLines (root : Node) : List String :=
  match cleanClone root with
  | .text _ => []
  | .elem t _ cs => topGo t 0 cs

/-- The full `lines` buffer of one extraction (title lines, then the
walk output). -/
def emittedLines (doc : Document) : List String :=
  match rootSel doc with
  | none => []
  | some r => titleLines doc ++ bodyLines r

/-- Post-processing of the joined buffer:
`.replace(/\n{3,}/g, "\n\n").trim()`. -/
def postProcess (s : String) : String := jsTrim (collapseNewlines s)

/-- `extractPageText`: the whole extraction pipeline. -/
def extractPageText (doc : Document) : String :=
  match rootSel doc with
  | none => ""
  | some r =>
    "Source: " ++ doc.url ++ "\n\n" ++
      postProcess (joinNL (titleLines doc ++ bodyLines r))

/-- `extractPageText` with the live document threaded as explicit
state, mirroring the source statement by statement: every query reads
the live document, every mutation (unhiding, stripping) is applied to
the detached clone value, and the final live document is returned next
to the result. -/
def extractPageTextS (doc : Document) : String × Document :=
  match rootSel doc with
  | none => ("", doc)
  | some root =>
    let clone := root
    let clone := preCleanTabs clone
    let clone := preCleanHidden clone
    let clone := stripPhase clone
    let tLines := titleLines doc
    let body :=
      match clone with
      | .text _ => []
      | .elem t _ cs => topGo t 0 cs
    (("Source: " ++ doc.url ++ "\n\n" ++
        jsTrim (collapseNewlines (joinNL (tLines ++ body)))), doc)

/-! ## Decidable equality of nodes -/

mutual
def nodeBEq : Node → Node → Bool
  | .text s, .text s' => s == s'
  | .elem t a cs, .elem t' a' cs' => t == t' && a == a' && nodeBEqL cs cs'
  | .text _, .elem _ _ _ => false
  | .elem _ _ _, .text _ => false
def nodeBEqL : List Node → List Node → Bool
  | [], [] => true
  | c :: cs, c' :: cs' => nodeBEq c c' && nodeBEqL cs cs'
  | [], _ :: _ => false
  | _ :: _, [] => false
end

mutual
theorem nodeBEq_rfl : ∀ n, nodeBEq n n = true
  | .text s => by simp [nodeBEq]
  | .elem t a cs => by simp [nodeBEq, nodeBEqL_rfl cs]
theorem nodeBEqL_rfl : ∀ cs, nodeBEqL cs cs = true
  | [] => rfl
  | c :: cs => by simp [nodeBEqL, nodeBEq_rfl c, nodeBEqL_rfl cs]
end

mutual
theorem nodeBEq_eq : ∀ m n, nodeBEq m n = true → m = n
  | .text s, .text s' => by simp [nodeBEq]
  | .elem t a cs, .elem t' a' cs' => by
    simp [nodeBEq]
    exact fun h1 h2 h3 => ⟨h1, h2, nodeBEqL_eq cs cs' h3⟩
  | .text _, .elem _ _ _ => by simp [nodeBEq]
  | .elem _ _ _, .text _ => by simp [nodeBEq]
theorem nodeBEqL_eq : ∀ cs cs', nodeBEqL cs cs' = true → cs = cs'
  | [], [] => fun _ => rfl
  | c :: cs, c' :: cs' => by
    simp [nodeBEqL]
    exact fun h1 h2 => ⟨nodeBEq_eq c c' h1, nodeBEqL_eq cs cs' h2⟩
  | [], _ :: _ => by simp [nodeBEqL]
  | _ :: _, [] => by simp [nodeBEqL]
end

instance : DecidableEq Node := fun m n =>
  if h : nodeBEq m n = true then isTrue (nodeBEq_eq m n h)
  else isFalse fun he => h (he ▸ nodeBEq_rfl m)

/-- `[role="tabpanel"]`. -/
def isTabpanel (n : Node) : Bool :=
  n.isElem && getAttr n.attrs "role" == some "tabpanel"

/-! ## Concrete example documents -/

/-- Shorthand builders for concrete documents. -/
def el (t : String) (a : List (String × String)) (cs : List Node) : Node :=
  Node.elem t a cs

def tx (s : String) : Node := Node.text s

/-- A page with no `article`, no `id="content-area"` and no `main`. -/
def docNoRoot : Document :=
  ⟨"https://e.x/none", el "html" [] [el "div" [] [tx "lonely"]]⟩

def mainNoTitle : Node := el "main" [] [el "p" [] [tx "hello body"]]

/-- A page with a content root but no `h1` anywhere. -/
def docNoTitle : Document := ⟨"https://e.x/nt", el "html" [] [mainNoTitle]⟩

def mainNavTitle : Node := el "main" [] [el "p" [] [tx "hello"]]

/-- A page whose only `h1` lives in the `nav`, outside the `main`
content root. -/
def docNavTitle : Document :=
  ⟨"https://e.x/nav",
   el "html" [] [el "nav" [] [el "h1" [] [tx "Site Title"]], mainNavTitle]⟩

/-- A page whose `h1` is nested inside a `div` of the content root (so
it is not a *direct* child of the root). -/
def docNestedH1 : Document :=
  ⟨"https://e.x/",
   el "html" [] [el "main" []
     [el "div" [] [el "h1" [] [tx "T"]], el "p" [] [tx "B"]]]⟩

def prePython : Node :=
  el "pre" [] [el "code" [("class", "language-python")] [tx "print(1)"]]

def docPython : Document :=
  ⟨"https://e.x/py", el "html" [] [el "main" [] [prePython]]⟩

/-- A code block whose trimmed text contains a run of four newlines. -/
def preFences : Node := el "pre" [] [tx "A\n\n\n\nB"]

def docFences : Document :=
  ⟨"https://e.x/p", el "html" [] [el "main" [] [preFences]]⟩

/-- A hidden tab panel containing a code block. -/
def tabDiv : Node :=
  el "div"
    [("role", "tabpanel"), ("aria-hidden", "true"), ("hidden", ""),
     ("style.display", "none")]
    [el "pre" [] [el "code" [("class", "language-js")] [tx "x = 1"]]]

/-- A plain ARIA-hidden wrapper containing a code block. -/
def hiddenDiv : Node :=
  el "div" [("aria-hidden", "true")] [el "pre" [] [el "code" [] [tx "y = 2"]]]

def mainHidden : Node :=
  el "main" []
    [tabDiv, hiddenDiv, el "div" [("aria-hidden", "true")] [tx "decorative"]]

/-- A page whose code blocks are all initially hidden. -/
def docHidden : Document := ⟨"https://e.x/h", el "html" [] [mainHidden]⟩

/-- Substring test over character lists (`hay` contains `pat`
contiguously), used to state containment in extraction results. -/
def containsSeq : List Char → List Char → Bool
  | [], pat => pat.isEmpty
  | c :: cs, pat => listStartsWith pat (c :: cs) || containsSeq cs pat

/-! ## Attribute lemmas -/

theorem getAttr_removeAttr_self (a : List (String × String)) (k : String) :
    getAttr (removeAttr a k) k = none := by
  induction a with
  | nil => rfl
  | cons kv rest ih =>
    obtain ⟨k', v⟩ := kv
    by_cases h : (k' == k) = true
    · simp [removeAttr, h, ih]
    · simp [removeAttr, h, getAttr, ih]

theorem getAttr_removeAttr_ne (a : List (String × String)) (k k' : String)
    (h : k' ≠ k) : getAttr (removeAttr a k) k' = getAttr a k' := by
  induction a with
  | nil => rfl
  | cons kv rest ih =>
    obtain ⟨k₀, v⟩ := kv
    by_cases h0 : (k₀ == k) = true
    · have : k₀ = k := by simpa using h0
      subst this
      have : (k₀ == k') = false := by
        simp only [beq_eq_false_iff_ne, ne_eq]
        exact fun he => h he.symm
      simp [removeAttr, getAttr, this, ih]
    · simp [removeAttr, h0, getAttr, ih]

theorem getAttr_unhide_aria (a : List (String × String)) :
    getAttr (unhide a) "aria-hidden" = none := by
  unfold unhide
  rw [getAttr_removeAttr_ne _ _ _ (by decide),
      getAttr_removeAttr_ne _ _ _ (by decide),
      getAttr_removeAttr_self]

theorem getAttr_unhide_hidden (a : List (String × String)) :
    getAttr (unhide a) "hidden" = none := by
  unfold unhide
  rw [getAttr_removeAttr_ne _ _ _ (by decide),
      getAttr_removeAttr_self]

theorem getAttr_unhide_role (a : List (String × String)) :
    getAttr (unhide a) "role" = getAttr a "role" := by
  unfold unhide
  rw [getAttr_removeAttr_ne _ _ _ (by decide),
      getAttr_removeAttr_ne _ _ _ (by decide),
      getAttr_removeAttr_ne _ _ _ (by decide)]

/-! ## Newline-collapse lemmas -/

theorem collapseAux_replicate (b : List Char) :
    ∀ (k p : Nat), collapseAux p (List.replicate k '\n' ++ b) = collapseAux (p + k) b := by
  intro k
  induction k with
  | zero => intro p; simp
  | succ n ih =>
    intro p
    have : List.replicate (n + 1) '\n' ++ b = '\n' :: (List.replicate n '\n' ++ b) := by
      simp [List.replicate]
    rw [this]
    show collapseAux p ('\n' :: (List.replicate n '\n' ++ b)) = _
    rw [collapseAux]
    simp only [beq_self_eq_true, if_true]
    rw [ih (p + 1)]
    congr 1
    omega

theorem hasTripleAux_skip (m : Nat) (hm : m ≤ 2) (c : Char)
    (hc : (c == '\n') = false) (rest : List Char) :
    hasTripleAux 0 (List.replicate m '\n' ++ c :: rest) = hasTripleAux 0 rest := by
  interval_cases m <;> simp [hasTripleAux, hc]

theorem hasTripleAux_replicate (m : Nat) (hm : m ≤ 2) :
    hasTripleAux 0 (List.replicate m '\n') = false := by
  interval_cases m <;> simp [hasTripleAux]

/-- The output of the collapse never contains three consecutive
newlines. -/
theorem collapse_noTriple (l : List Char) :
    ∀ p, hasTripleAux 0 (collapseAux p l) = false := by
  induction l with
  | nil =>
    intro p
    exact hasTripleAux_replicate _ (Nat.min_le_right p 2)
  | cons c cs ih =>
    intro p
    by_cases hc : (c == '\n') = true
    · rw [collapseAux, if_pos hc]; exact ih (p + 1)
    · have hc' : (c == '\n') = false := by
        simpa using hc
      rw [collapseAux, if_neg (by simp [hc'])]
      rw [hasTripleAux_skip _ (Nat.min_le_right p 2) c hc']
      exact ih 0

theorem collapseAux_cons_nl (p : Nat) (cs : List Char) :
    collapseAux p ('\n' :: cs) = collapseAux (p + 1) cs := by
  rw [collapseAux]
  simp

theorem collapseAux_cons_other (p : Nat) (c : Char) (hc : (c == '\n') = false)
    (cs : List Char) :
    collapseAux p (c :: cs) =
      List.replicate (min p 2) '\n' ++ c :: collapseAux 0 cs := by
  rw [collapseAux, if_neg (by simp [hc])]

theorem collapseAux_nil (p : Nat) :
    collapseAux p [] = List.replicate (min p 2) '\n' := by
  rw [collapseAux]

/-- Splitting lemma for the collapse: a maximal interior run of `k ≥ 3`
newlines (the neighbouring characters are not newlines) is replaced by
exactly two newlines, and the rest of the text is collapsed
independently. -/
theorem collapseAux_split (b : List Char) (k : Nat) (hk : 3 ≤ k)
    (hb : b.head? ≠ some '\n') :
    ∀ (a : List Char) (p : Nat), (a = [] → p = 0) → a.getLast? ≠ some '\n' →
      collapseAux p (a ++ List.replicate k '\n' ++ b) =
        collapseAux p a ++ ['\n', '\n'] ++ collapseAux 0 b := by
  intro a
  induction a with
  | nil =>
    intro p hp _
    rw [hp rfl]
    have h2 : min k 2 = 2 := by omega
    simp only [List.nil_append]
    rw [collapseAux_replicate b k 0, Nat.zero_add, collapseAux_nil]
    cases b with
    | nil =>
      rw [collapseAux_nil, collapseAux_nil, h2]
      rfl
    | cons c b' =>
      have hc : (c == '\n') = false := by
        cases h : c == '\n'
        · rfl
        · exact absurd (by simp [List.head?, beq_iff_eq.mp h]) hb
      rw [collapseAux_cons_other k c hc b', collapseAux_cons_other 0 c hc b', h2]
      rfl
  | cons x a' ih =>
    intro p _ hlast
    by_cases hx : (x == '\n') = true
    · have hx' : x = '\n' := beq_iff_eq.mp hx
      subst hx'
      cases a' with
      | nil => exact absurd (by simp) hlast
      | cons y a'' =>
        have hlast' : (y :: a'').getLast? ≠ some '\n' := by
          rwa [List.getLast?_cons_cons] at hlast
        show collapseAux p ('\n' :: ((y :: a'') ++ List.replicate k '\n' ++ b)) =
          collapseAux p ('\n' :: (y :: a'')) ++ ['\n', '\n'] ++ collapseAux 0 b
        rw [collapseAux_cons_nl, collapseAux_cons_nl]
        exact ih (p + 1) (by intro h; cases h) hlast'
    · have hx' : (x == '\n') = false := by simpa using hx
      have hlast' : a'.getLast? ≠ some '\n' := by
        cases a' with
        | nil => simp
        | cons y a'' => rwa [List.getLast?_cons_cons] at hlast
      show collapseAux p (x :: (a' ++ List.replicate k '\n' ++ b)) =
        collapseAux p (x :: a') ++ ['\n', '\n'] ++ collapseAux 0 b
      rw [collapseAux_cons_other p x hx', collapseAux_cons_other p x hx']
      rw [ih 0 (fun _ => rfl) hlast']
      simp

/-! ## Pre-clean structure lemmas -/

mutual
theorem descs_pc1 : ∀ n, descs (pc1 n) = (descs n).map pc1
  | .text _ => rfl
  | .elem t a cs => by
    show descsL (pc1L cs) = (descsL cs).map pc1
    exact descsL_pc1 cs
theorem descsL_pc1 : ∀ cs, descsL (pc1L cs) = (descsL cs).map pc1
  | [] => rfl
  | c :: cs => by
    show pc1 c :: (descs (pc1 c) ++ descsL (pc1L cs)) = _
    rw [descs_pc1 c, descsL_pc1 cs]
    simp [descsL]
end

mutual
theorem descs_pc2 : ∀ n, descs (pc2 n) = (descs n).map pc2
  | .text _ => rfl
  | .elem t a cs => by
    show descsL (pc2L cs) = (descsL cs).map pc2
    exact descsL_pc2 cs
theorem descsL_pc2 : ∀ cs, descsL (pc2L cs) = (descsL cs).map pc2
  | [] => rfl
  | c :: cs => by
    show pc2 c :: (descs (pc2 c) ++ descsL (pc2L cs)) = _
    rw [descs_pc2 c, descsL_pc2 cs]
    simp [descsL]
end

mutual
theorem hasPreIn_pc2 : ∀ n, hasPreIn (pc2 n) = hasPreIn n
  | .text _ => rfl
  | .elem t a cs => by
    show (t == "pre" || hasPreInL (pc2L cs)) = (t == "pre" || hasPreInL cs)
    rw [hasPreInL_pc2 cs]
theorem hasPreInL_pc2 : ∀ cs, hasPreInL (pc2L cs) = hasPreInL cs
  | [] => rfl
  | c :: cs => by
    show (hasPreIn (pc2 c) || hasPreInL (pc2L cs)) = _
    rw [hasPreIn_pc2 c, hasPreInL_pc2 cs]
    rfl
end

/-- The attributes of a node after `pc1`: unchanged, or unhidden. -/
theorem pc1_attrs (n : Node) :
    (pc1 n).attrs = n.attrs ∨ (pc1 n).attrs = unhide n.attrs := by
  cases n with
  | text s => exact Or.inl rfl
  | elem t a cs =>
    by_cases h : (getAttr a "role" == some "tabpanel") = true
    · right; simp [pc1, h, Node.attrs]
    · left; simp [pc1, h, Node.attrs]

theorem pc2_attrs (n : Node) :
    (pc2 n).attrs = n.attrs ∨ (pc2 n).attrs = unhide n.attrs := by
  cases n with
  | text s => exact Or.inl rfl
  | elem t a cs =>
    by_cases h : (getAttr a "aria-hidden" == some "true" && (t == "pre" || hasPreInL cs)) = true
    · right; simp [pc2, h, Node.attrs]
    · left; simp [pc2, h, Node.attrs]

theorem pc1_isElem (n : Node) : (pc1 n).isElem = n.isElem := by
  cases n <;> rfl

theorem pc2_isElem (n : Node) : (pc2 n).isElem = n.isElem := by
  cases n <;> rfl

/-- After `pc1`, every node in the mapped tree that is a tab panel has
no hidden markers. -/
theorem pc1_tab_unhidden (n : Node) (h : isTabpanel (pc1 n) = true) :
    getAttr (pc1 n).attrs "aria-hidden" = none ∧
      getAttr (pc1 n).attrs "hidden" = none := by
  cases n with
  | text s => simp [isTabpanel, pc1, Node.isElem] at h
  | elem t a cs =>
    by_cases hr : (getAttr a "role" == some "tabpanel") = true
    · have : (pc1 (Node.elem t a cs)).attrs = unhide a := by
        simp [pc1, hr, Node.attrs]
      rw [this]
      exact ⟨getAttr_unhide_aria a, getAttr_unhide_hidden a⟩
    · exfalso
      have : (pc1 (Node.elem t a cs)).attrs = a := by
        simp [pc1, hr, Node.attrs]
      rw [isTabpanel, this] at h
      simp only [Bool.and_eq_true] at h
      exact hr h.2

theorem getAttr_pc2_role (n : Node) :
    getAttr (pc2 n).attrs "role" = getAttr n.attrs "role" := by
  rcases pc2_attrs n with h | h
  · rw [h]
  · rw [h, getAttr_unhide_role]

theorem isTabpanel_pc2 (n : Node) : isTabpanel (pc2 n) = isTabpanel n := by
  rw [isTabpanel, isTabpanel, pc2_isElem, getAttr_pc2_role]

/-- After `pc2`, a node that still carries `aria-hidden="true"` neither
is nor contains a `pre`. -/
theorem pc2_hidden_noPre (n : Node) (h : selHidden (pc2 n) = true) :
    hasPreIn (pc2 n) = false := by
  cases n with
  | text s => simp [selHidden, pc2, Node.isElem] at h
  | elem t a cs =>
    by_cases hc : (getAttr a "aria-hidden" == some "true" &&
        (t == "pre" || hasPreInL cs)) = true
    · exfalso
      have ha : (pc2 (Node.elem t a cs)).attrs = unhide a := by
        simp [pc2, hc, Node.attrs]
      rw [selHidden, ha, getAttr_unhide_aria] at h
      simp at h
    · have ha : (pc2 (Node.elem t a cs)).attrs = a := by
        simp [pc2, hc, Node.attrs]
      rw [selHidden, ha] at h
      have haria : (getAttr a "aria-hidden" == some "true") = true := by
        rw [Bool.and_eq_true] at h
        exact h.2
      have hnp : (t == "pre" || hasPreInL cs) = false := by
        cases hpp : (t == "pre" || hasPreInL cs)
        · rfl
        · exact absurd (by rw [haria, hpp]; rfl) hc
      show (t == "pre" || hasPreInL (pc2L cs)) = false
      rw [hasPreInL_pc2]
      exact hnp

/-- Establishing the two pre-clean postconditions on every strict
descendant of the cleaned clone. -/
theorem preCleanPhase_tab_unhidden (root : Node) :
    ∀ d ∈ descs (preCleanPhase root), isTabpanel d = true →
      getAttr d.attrs "aria-hidden" = none ∧ getAttr d.attrs "hidden" = none := by
  intro d hd htab
  cases root with
  | text s => simp [preCleanPhase, preCleanTabs, preCleanHidden, descs] at hd
  | elem t a cs =>
    have hd' : d ∈ (descsL (pc1L cs)).map pc2 := by
      rw [← descsL_pc2]
      exact hd
    obtain ⟨m, hm, rfl⟩ := List.mem_map.mp hd'
    have hm' : m ∈ (descsL cs).map pc1 := by
      rw [← descsL_pc1]
      exact hm
    obtain ⟨m₀, _, rfl⟩ := List.mem_map.mp hm'
    have htab1 : isTabpanel (pc1 m₀) = true := by
      rw [← isTabpanel_pc2]
      exact htab
    have hmk := pc1_tab_unhidden m₀ htab1
    rcases pc2_attrs (pc1 m₀) with h2 | h2
    · rw [h2]
      exact hmk
    · rw [h2]
      exact ⟨getAttr_unhide_aria _, getAttr_unhide_hidden _⟩

theorem preCleanPhase_hidden_noPre (root : Node) :
    ∀ d ∈ descs (preCleanPhase root), selHidden d = true → hasPreIn d = false := by
  intro d hd hsel
  cases root with
  | text s => simp [preCleanPhase, preCleanTabs, preCleanHidden, descs] at hd
  | elem t a cs =>
    have hd' : d ∈ (descsL (pc1L cs)).map pc2 := by
      rw [← descsL_pc2]
      exact hd
    obtain ⟨m, _, rfl⟩ := List.mem_map.mp hd'
    exact pc2_hidden_noPre m hsel

/-! ## Strip-pass lemmas -/

theorem removeMatching_attrs (p : Node → Bool) (n : Node) :
    (removeMatching p n).attrs = n.attrs := by
  cases n <;> rfl

theorem removeMatching_isElem (p : Node → Bool) (n : Node) :
    (removeMatching p n).isElem = n.isElem := by
  cases n <;> rfl

theorem removeMatching_tag (p : Node → Bool) (n : Node) :
    (removeMatching p n).tag = n.tag := by
  cases n <;> rfl

theorem mem_descsL_head (c : Node) (cs : List Node) : c ∈ descsL (c :: cs) :=
  List.mem_cons_self c _

theorem mem_descsL_of_descs (c : Node) (cs : List Node) (d : Node)
    (hd : d ∈ descs c) : d ∈ descsL (c :: cs) :=
  List.mem_cons_of_mem _ (List.mem_append_left _ hd)

theorem mem_descsL_of_tail (c : Node) (cs : List Node) (d : Node)
    (hd : d ∈ descsL cs) : d ∈ descsL (c :: cs) :=
  List.mem_cons_of_mem _ (List.mem_append_right _ hd)

mutual
theorem hasPreIn_removeMatching (p : Node → Bool) :
    ∀ n, hasPreIn (removeMatching p n) = true → hasPreIn n = true
  | .text _ => fun h => h
  | .elem t a cs => by
    intro h
    have h' : (t == "pre" || hasPreInL (removeML p cs)) = true := h
    show (t == "pre" || hasPreInL cs) = true
    rcases Bool.or_eq_true_iff.mp h' with h1 | h2
    · exact Bool.or_eq_true_iff.mpr (Or.inl h1)
    · exact Bool.or_eq_true_iff.mpr (Or.inr (hasPreInL_removeML p cs h2))
theorem hasPreInL_removeML (p : Node → Bool) :
    ∀ cs, hasPreInL (removeML p cs) = true → hasPreInL cs = true
  | [] => fun h => h
  | c :: cs => by
    intro h
    show (hasPreIn c || hasPreInL cs) = true
    by_cases hrm : (c.isElem && p c) = true
    · rw [removeML, if_pos hrm] at h
      exact Bool.or_eq_true_iff.mpr (Or.inr (hasPreInL_removeML p cs h))
    · rw [removeML, if_neg hrm] at h
      have h' : (hasPreIn (removeMatching p c) || hasPreInL (removeML p cs)) = true := h
      rcases Bool.or_eq_true_iff.mp h' with h1 | h2
      · exact Bool.or_eq_true_iff.mpr (Or.inl (hasPreIn_removeMatching p c h1))
      · exact Bool.or_eq_true_iff.mpr (Or.inr (hasPreInL_removeML p cs h2))
end

mutual
theorem descs_removeMatching_sub (p : Node → Bool) :
    ∀ n, ∀ d ∈ descs (removeMatching p n),
      ∃ d₀ ∈ descs n, d.attrs = d₀.attrs ∧ d.isElem = d₀.isElem ∧
        (hasPreIn d = true → hasPreIn d₀ = true)
  | .text _ => by
    intro d hd
    simp [removeMatching, descs] at hd
  | .elem t a cs => by
    intro d hd
    exact descsL_removeML_sub p cs d hd
theorem descsL_removeML_sub (p : Node → Bool) :
    ∀ cs, ∀ d ∈ descsL (removeML p cs),
      ∃ d₀ ∈ descsL cs, d.attrs = d₀.attrs ∧ d.isElem = d₀.isElem ∧
        (hasPreIn d = true → hasPreIn d₀ = true)
  | [] => by
    intro d hd
    simp [removeML, descsL] at hd
  | c :: cs => by
    intro d hd
    by_cases hrm : (c.isElem && p c) = true
    · rw [removeML, if_pos hrm] at hd
      obtain ⟨d₀, hm, hrest⟩ := descsL_removeML_sub p cs d hd
      exact ⟨d₀, mem_descsL_of_tail c cs d₀ hm, hrest⟩
    · rw [removeML, if_neg hrm] at hd
      have hd' : d = removeMatching p c ∨
          d ∈ descs (removeMatching p c) ++ descsL (removeML p cs) :=
        List.eq_or_mem_of_mem_cons hd
      rcases hd' with rfl | hd'
      · exact ⟨c, mem_descsL_head c cs, removeMatching_attrs p c,
          removeMatching_isElem p c, hasPreIn_removeMatching p c⟩
      · rcases List.mem_append.mp hd' with h1 | h2
        · obtain ⟨d₀, hm, hrest⟩ := descs_removeMatching_sub p c d h1
          exact ⟨d₀, mem_descsL_of_descs c cs d₀ hm, hrest⟩
        · obtain ⟨d₀, hm, hrest⟩ := descsL_removeML_sub p cs d h2
          exact ⟨d₀, mem_descsL_of_tail c cs d₀ hm, hrest⟩
end

/-- A removal pass preserves the invariant that ARIA-hidden descendants
do not contain code blocks. -/
theorem hiddenNoPre_removeMatching (p : Node → Bool) (n : Node)
    (h : ∀ d ∈ descs n, selHidden d = true → hasPreIn d = false) :
    ∀ d ∈ descs (removeMatching p n), selHidden d = true → hasPreIn d = false := by
  intro d hd hsel
  obtain ⟨d₀, hd₀, ha, he, hmono⟩ := descs_removeMatching_sub p n d hd
  have hsel₀ : selHidden d₀ = true := by
    rw [selHidden] at hsel ⊢
    rw [he, ha] at hsel
    exact hsel
  have hnp := h d₀ hd₀ hsel₀
  cases hh : hasPreIn d
  · rfl
  · exact absurd (hmono hh) (by simp [hnp])

theorem isPre_hasPreIn (n : Node) (h : isPre n = true) : hasPreIn n = true := by
  cases n with
  | text s => simp [isPre, Node.isElem] at h
  | elem t a cs =>
    have ht : (t == "pre") = true := by
      simpa [isPre, Node.isElem, Node.tag] using h
    show (t == "pre" || hasPreInL cs) = true
    rw [ht]
    rfl

mutual
theorem qsa_isPre_nil : ∀ n, hasPreIn n = false → qsa isPre n = []
  | .text _ => fun _ => rfl
  | .elem t a cs => by
    intro h
    have h' : (t == "pre" || hasPreInL cs) = false := h
    exact qsaL_isPre_nil cs (by
      rcases Bool.or_eq_false_iff.mp h' with ⟨_, h2⟩
      exact h2)
theorem qsaL_isPre_nil : ∀ cs, hasPreInL cs = false → qsaL isPre cs = []
  | [] => fun _ => rfl
  | c :: cs => by
    intro h
    have h' : (hasPreIn c || hasPreInL cs) = false := h
    obtain ⟨h1, h2⟩ := Bool.or_eq_false_iff.mp h'
    have hp : isPre c = false := by
      cases hh : isPre c
      · rfl
      · exact absurd (isPre_hasPreIn c hh) (by simp [h1])
    show (if isPre c then [c] else []) ++ qsa isPre c ++ qsaL isPre cs = []
    rw [hp, qsa_isPre_nil c h1, qsaL_isPre_nil cs h2]
    rfl
end

mutual
/-- Under the invariant of the pre-clean phase, a removal pass whose
selector only matches pre-free subtrees keeps every `pre` element (the
pass is still applied inside each of them). -/
theorem qsa_isPre_removeMatching (q : Node → Bool) :
    ∀ n, (∀ d ∈ descs n, q d = true → hasPreIn d = false) →
      qsa isPre (removeMatching q n) = (qsa isPre n).map (removeMatching q)
  | .text _ => fun _ => rfl
  | .elem _ _ cs => fun h => qsaL_isPre_removeML q cs h
theorem qsaL_isPre_removeML (q : Node → Bool) :
    ∀ cs, (∀ d ∈ descsL cs, q d = true → hasPreIn d = false) →
      qsaL isPre (removeML q cs) = (qsaL isPre cs).map (removeMatching q)
  | [] => fun _ => rfl
  | c :: cs => by
    intro h
    have hhead : ∀ d ∈ descs c, q d = true → hasPreIn d = false :=
      fun d hd => h d (mem_descsL_of_descs c cs d hd)
    have htail : ∀ d ∈ descsL cs, q d = true → hasPreIn d = false :=
      fun d hd => h d (mem_descsL_of_tail c cs d hd)
    by_cases hrm : (c.isElem && q c) = true
    · have hq : q c = true := (Bool.and_eq_true_iff.mp hrm).2
      have hnp : hasPreIn c = false := h c (mem_descsL_head c cs) hq
      have hp : isPre c = false := by
        cases hh : isPre c
        · rfl
        · exact absurd (isPre_hasPreIn c hh) (by simp [hnp])
      rw [removeML, if_pos hrm]
      rw [qsaL_isPre_removeML q cs htail]
      show _ = ((if isPre c then [c] else []) ++ qsa isPre c ++ qsaL isPre cs).map _
      rw [hp, qsa_isPre_nil c hnp]
      simp
    · rw [removeML, if_neg hrm]
      show (if isPre (removeMatching q c) then [removeMatching q c] else []) ++
          qsa isPre (removeMatching q c) ++ qsaL isPre (removeML q cs) =
        ((if isPre c then [c] else []) ++ qsa isPre c ++ qsaL isPre cs).map
          (removeMatching q)
      have hiso : isPre (removeMatching q c) = isPre c := by
        rw [isPre, isPre, removeMatching_isElem, removeMatching_tag]
      rw [hiso, qsa_isPre_removeMatching q c hhead, qsaL_isPre_removeML q cs htail]
      by_cases hp : isPre c = true
      · simp [hp]
      · simp [hp]
end

/-! ## Claims -/

/-- C1, counterexample: the claim says the result begins with
`Source: <url>` and a blank line for *every* document, "including when
no content root matches"; but when no content root matches the source
returns the empty string (line 23), which has no such prefix. -/
theorem c1_counterexample :
    ¬ ∃ rest, extractPageText docNoRoot =
        "Source: " ++ docNoRoot.url ++ "\n\n" ++ rest := by
  rintro ⟨rest, h⟩
  have h0 : extractPageText docNoRoot = "" := rfl
  rw [h0] at h
  have hl := congrArg String.length h
  rw [String.length_append, String.length_append, String.length_append] at hl
  have e1 : ("" : String).length = 0 := rfl
  have e2 : ("Source: " : String).length = 8 := rfl
  have e3 : (docNoRoot.url).length = 16 := rfl
  have e4 : ("\n\n" : String).length = 2 := rfl
  rw [e1, e2, e3, e4] at hl
  omega

/-- C1, amended: for every document with a matching content root, the
extraction result begins with `Source: `, the page URL and a blank line
(the remainder being the post-processed body); with no content root the
result is the empty string instead. -/
theorem c1_source_prefix (doc : Document) (r : Node)
    (h : rootSel doc = some r) :
    ∃ rest, extractPageText doc = "Source: " ++ doc.url ++ "\n\n" ++ rest := by
  refine ⟨postProcess (joinNL (titleLines doc ++ bodyLines r)), ?_⟩
  simp only [extractPageText, h]

/-- Witness for C1 at a concrete page. -/
theorem c1_witness :
    rootSel docNavTitle = some mainNavTitle ∧
      ∃ rest, extractPageText docNavTitle =
        "Source: " ++ docNavTitle.url ++ "\n\n" ++ rest :=
  ⟨rfl, c1_source_prefix docNavTitle mainNavTitle rfl⟩

/-- C2: when none of the content-root selectors (`article`,
`#content-area`, `main`) matches, `extractPageText` returns the empty
string. -/
theorem c2_no_root_empty (doc : Document) (h : rootSel doc = none) :
    extractPageText doc = "" := by
  simp only [extractPageText, h]

/-- Witness for C2 at a concrete page with no content root. -/
theorem c2_witness : rootSel docNoRoot = none ∧ extractPageText docNoRoot = "" :=
  ⟨rfl, c2_no_root_empty docNoRoot rfl⟩

/-- C3, counterexample: in `docNestedH1` the `h1` is nested inside a
`div` of the content root.  The walk only skips `h1` elements that are
*direct children* of the root, so the heading text `T` is emitted a
second time in the body (the third emitted line), contradicting the
claim that the heading is excluded from the tree walk. -/
theorem c3_counterexample :
    titleCascade docNestedH1 = some (el "h1" [] [tx "T"]) ∧
    emittedLines docNestedH1 = ["# T", "", "T", "", "B", ""] ∧
    extractPageText docNestedH1 = "Source: https://e.x/\n\n# T\n\nT\n\nB" :=
  ⟨rfl, by decide, by decide⟩

/-- C3, amended: the heading found by the title cascade is emitted once
as a `# ` line followed by a blank line, and `h1` elements that are
direct children of the content root are skipped by the tree walk
(contributing no lines while still occupying their sibling index); an
`h1` nested deeper inside the root is still walked, so its text can
appear a second time in the body. -/
theorem c3_title_once (doc : Document) (r t : Node)
    (hr : rootSel doc = some r) (ht : titleCascade doc = some t) :
    emittedLines doc = ("# " ++ jsTrim (textContent t)) :: "" :: bodyLines r ∧
    (∀ (ptag : String) (cnt : Nat) (a : List (String × String))
        (cs rest : List Node),
        topGo ptag cnt (Node.elem "h1" a cs :: rest) = topGo ptag (cnt + 1) rest) := by
  constructor
  · simp only [emittedLines, hr, titleLines, ht]
    rfl
  · intro ptag cnt a cs rest
    rfl

/-- Witness for C3 at a concrete page. -/
theorem c3_witness :
    rootSel docNestedH1 =
      some (el "main" [] [el "div" [] [el "h1" [] [tx "T"]], el "p" [] [tx "B"]]) ∧
    emittedLines docNestedH1 =
      ("# " ++ jsTrim (textContent (el "h1" [] [tx "T"]))) :: "" ::
        bodyLines (el "main" [] [el "div" [] [el "h1" [] [tx "T"]], el "p" [] [tx "B"]]) :=
  ⟨rfl, (c3_title_once docNestedH1 _ _ rfl rfl).1⟩

/-- C4: after the pre-clean phase (which runs before the strip phase by
the very shape of the pipeline, third conjunct) every tab-panel
descendant has lost its `aria-hidden`/`hidden` markers, no descendant
still marked `aria-hidden="true"` is or contains a `pre`, and therefore
the indiscriminate `[aria-hidden='true']` removal pass — at the exact
point it runs, after the `nav`/`header`/`footer` passes — removes no
`pre` element: every code block survives it (fourth conjunct, with the
pass mapped inside each surviving block). -/
theorem c4_preclean_before_hidden_purge (root d : Node)
    (hd : d ∈ descs (preCleanPhase root)) :
    (isTabpanel d = true →
        getAttr d.attrs "aria-hidden" = none ∧ getAttr d.attrs "hidden" = none)
  ∧ (selHidden d = true → hasPreIn d = false)
  ∧ stripPhase (preCleanPhase root) =
      stripTail (removeMatching selHidden (stripHead (preCleanPhase root)))
  ∧ qsa isPre (removeMatching selHidden (stripHead (preCleanPhase root))) =
      (qsa isPre (stripHead (preCleanPhase root))).map (removeMatching selHidden) := by
  refine ⟨preCleanPhase_tab_unhidden root d hd,
    preCleanPhase_hidden_noPre root d hd, rfl, ?_⟩
  apply qsa_isPre_removeMatching
  exact hiddenNoPre_removeMatching selFooter _
    (hiddenNoPre_removeMatching selHeader _
      (hiddenNoPre_removeMatching selNav _ (preCleanPhase_hidden_noPre root)))

/-- Witness for C4: the unhidden tab panel of `docHidden`, and the
end-to-end extraction showing both initially-hidden code blocks in the
result. -/
theorem c4_witness :
    (getAttr (el "div" [("role", "tabpanel")]
        [el "pre" [] [el "code" [("class", "language-js")] [tx "x = 1"]]]).attrs
        "aria-hidden" = none ∧
      getAttr (el "div" [("role", "tabpanel")]
        [el "pre" [] [el "code" [("class", "language-js")] [tx "x = 1"]]]).attrs
        "hidden" = none) ∧
    extractPageText docHidden =
      "Source: https://e.x/h\n\n```js\nx = 1\n```\n\n```\ny = 2\n```" :=
  ⟨(c4_preclean_before_hidden_purge mainHidden _ (by decide)).1 (by decide),
   by decide⟩

/-- C5: the post-processing of the joined buffer is exactly
`collapse-then-trim` (first conjunct); the collapse output never
contains three consecutive newlines (second conjunct); and every
maximal interior run of `k ≥ 3` newlines — in particular the five or
more newlines produced by four or more consecutive blank lines — is
replaced by exactly two newlines, i.e. exactly one blank line, leaving
the surroundings untouched (third conjunct). -/
theorem c5_postprocess_collapse :
    (∀ (doc : Document) (r : Node), rootSel doc = some r →
        extractPageText doc = "Source: " ++ doc.url ++ "\n\n" ++
          jsTrim (collapseNewlines (joinNL (titleLines doc ++ bodyLines r))))
  ∧ (∀ (p : Nat) (l : List Char), hasTripleAux 0 (collapseAux p l) = false)
  ∧ (∀ (a b : List Char) (k : Nat), 3 ≤ k → a.getLast? ≠ some '\n' →
        b.head? ≠ some '\n' →
        collapseAux 0 (a ++ List.replicate k '\n' ++ b) =
          collapseAux 0 a ++ ['\n', '\n'] ++ collapseAux 0 b) := by
  refine ⟨?_, ?_, ?_⟩
  · intro doc r h
    simp only [extractPageText, h, postProcess]
  · intro p l
    exact collapse_noTriple l p
  · intro a b k hk ha hb
    exact collapseAux_split b k hk hb a 0 (fun _ => rfl) ha

/-- Witness for C5 at concrete strings. -/
theorem c5_witness :
    extractPageText docNoTitle = "Source: " ++ docNoTitle.url ++ "\n\n" ++
      jsTrim (collapseNewlines (joinNL (titleLines docNoTitle ++ bodyLines mainNoTitle)))
  ∧ hasTripleAux 0 (collapseAux 0 ("a\n\n\n\nb").data) = false
  ∧ collapseAux 0 (['x'] ++ List.replicate 5 '\n' ++ ['y']) =
      collapseAux 0 ['x'] ++ ['\n', '\n'] ++ collapseAux 0 ['y'] :=
  ⟨c5_postprocess_collapse.1 docNoTitle mainNoTitle rfl,
   c5_postprocess_collapse.2.1 0 ("a\n\n\n\nb").data,
   c5_postprocess_collapse.2.2 ['x'] ['y'] 5 (by decide) (by decide) (by decide)⟩

/-- C6: a `pre` element is emitted as blank line, opening fence with
the language tag (from a `language-word` class on the contained code
element, empty if absent), the trimmed text content, closing fence,
blank line; when the tag is `python` and the trimmed text is
`print(1)`, the emitted lines join to a string containing
```` ```python\nprint(1)\n``` ````, and a concrete page containing such
a block yields an extraction result containing that substring. -/
theorem c6_fenced_code_blocks :
    (∀ (ptag : String) (pidx : Nat) (pa : List (String × String)) (cs : List Node),
        walkNode ptag pidx (Node.elem "pre" pa cs) =
          ["", "```" ++ preLang (Node.elem "pre" pa cs),
           preText (Node.elem "pre" pa cs), "```", ""])
  ∧ (∀ (ptag : String) (pidx : Nat) (pa : List (String × String)) (cs : List Node),
        preLang (Node.elem "pre" pa cs) = "python" →
        preText (Node.elem "pre" pa cs) = "print(1)" →
        containsSeq (joinNL (walkNode ptag pidx (Node.elem "pre" pa cs))).data
          ("```python\nprint(1)\n```").data = true)
  ∧ containsSeq (extractPageText docPython).data
      ("```python\nprint(1)\n```").data = true := by
  refine ⟨fun _ _ _ _ => rfl, ?_, by decide⟩
  intro ptag pidx pa cs h1 h2
  have e : walkNode ptag pidx (Node.elem "pre" pa cs) =
      ["", "```" ++ preLang (Node.elem "pre" pa cs),
       preText (Node.elem "pre" pa cs), "```", ""] := rfl
  rw [e, h1, h2]
  decide

/-- Witness for C6 at the concrete python block. -/
theorem c6_witness :
    preLang prePython = "python" ∧ preText prePython = "print(1)" ∧
    containsSeq (joinNL (walkNode "main" 1 prePython)).data
      ("```python\nprint(1)\n```").data = true :=
  ⟨by decide, by decide,
   c6_fenced_code_blocks.2.1 "main" 1 []
     [el "code" [("class", "language-python")] [tx "print(1)"]]
     (by decide) (by decide)⟩

/-- C7: with a content root but no `h1` anywhere in the live document,
extraction does not fail and omits the title section entirely: the
emitted buffer is exactly the body produced by the tree walk, and the
result is the source line followed by the post-processed body. -/
theorem c7_no_title_still_body (doc : Document) (r : Node)
    (hr : rootSel doc = some r) (ht : titleCascade doc = none) :
    emittedLines doc = bodyLines r ∧
    extractPageText doc = "Source: " ++ doc.url ++ "\n\n" ++
      jsTrim (collapseNewlines (joinNL (bodyLines r))) := by
  constructor
  · simp only [emittedLines, hr, titleLines, ht]
    rfl
  · simp only [extractPageText, hr, postProcess, titleLines, ht]
    rfl

/-- Witness for C7: a concrete page with body content but no heading;
the output has no `# ` line yet contains the body text. -/
theorem c7_witness :
    rootSel docNoTitle = some mainNoTitle ∧ titleCascade docNoTitle = none ∧
    emittedLines docNoTitle = bodyLines mainNoTitle ∧
    extractPageText docNoTitle = "Source: https://e.x/nt\n\nhello body" :=
  ⟨rfl, rfl, (c7_no_title_still_body docNoTitle mainNoTitle rfl rfl).1, by decide⟩

/-- C8: extraction has no side effects on the live document: in the
state-passing rendering of the source (queries read the live document,
all mutations apply to the detached clone value) the live document
returned after extraction is the input document, unchanged. -/
theorem c8_no_live_mutation (doc : Document) :
    extractPageTextS doc = (extractPageText doc, doc) := by
  cases h : rootSel doc with
  | none => simp [extractPageTextS, extractPageText, h]
  | some r =>
    simp [extractPageTextS, extractPageText, h, postProcess, bodyLines,
      cleanClone, preCleanPhase]

/-- C9: the newline collapse is applied uniformly to the whole joined
text, including between code fences: any character list containing a
triple newline is changed by the collapse, and on a concrete page whose
code block trims to `A\n\n\n\nB` the final output carries the collapsed
body `A\n\nB` between the fences — the original text no longer occurs
anywhere in the result. -/
theorem c9_collapse_inside_fences :
    (∀ l : List Char, hasTripleAux 0 l = true → collapseAux 0 l ≠ l)
  ∧ preText preFences = "A\n\n\n\nB"
  ∧ extractPageText docFences = "Source: https://e.x/p\n\n```\nA\n\nB\n```"
  ∧ containsSeq (extractPageText docFences).data ("A\n\n\n\nB").data = false := by
  refine ⟨?_, by decide, by decide, by decide⟩
  intro l h heq
  have hn := collapse_noTriple l 0
  rw [heq, h] at hn
  exact Bool.noConfusion hn

/-- Witness for C9 at the concrete code text. -/
theorem c9_witness :
    hasTripleAux 0 ("A\n\n\n\nB").data = true ∧
    collapseAux 0 ("A\n\n\n\nB").data ≠ ("A\n\n\n\nB").data :=
  ⟨by decide, c9_collapse_inside_fences.1 ("A\n\n\n\nB").data (by decide)⟩

/-- C10: the title is searched in the full live document (cascade
`article h1`, `main h1`, `h1` over `doc.root`, second conjunct), not in
the cleaned clone: even when the content root contains no `h1` at all,
the `h1` found elsewhere in the document is emitted as the `# ` title
line of the output. -/
theorem c10_title_from_live_document (doc : Document) (r t : Node)
    (hr : rootSel doc = some r) (_hn : qsa isH1 r = [])
    (ht : titleCascade doc = some t) :
    emittedLines doc = ("# " ++ jsTrim (textContent t)) :: "" :: bodyLines r ∧
    titleCascade doc =
      (match findDescH1 "article" false doc.root with
       | some x => some x
       | none =>
         match findDescH1 "main" false doc.root with
         | some x => some x
         | none => findFirst isH1 doc.root) := by
  constructor
  · simp only [emittedLines, hr, titleLines, ht]
    rfl
  · rfl

/-- Witness for C10: the page whose only `h1` sits inside the `nav`,
outside the `main` content root; its text still becomes the title. -/
theorem c10_witness :
    rootSel docNavTitle = some mainNavTitle ∧
    qsa isH1 mainNavTitle = [] ∧
    titleCascade docNavTitle = some (el "h1" [] [tx "Site Title"]) ∧
    emittedLines docNavTitle =
      ("# " ++ jsTrim (textContent (el "h1" [] [tx "Site Title"]))) :: "" ::
        bodyLines mainNavTitle ∧
    extractPageText docNavTitle = "Source: https://e.x/nav\n\n# Site Title\n\nhello" :=
  ⟨rfl, rfl, rfl,
   (c10_title_from_live_document docNavTitle mainNavTitle _ rfl rfl rfl).1,
   by decide⟩
